import Mathlib

/-!
Verification of the VouchAI file-based event bus
(`src/communication/EventBus.ts`, with the event data model from
`src/communication/events.ts`).

The TypeScript code is embedded shallowly:

* The filesystem store (the `pending/` and `processed/` directories) is a
  pair of association lists from file name to file content.  A file content
  is either `malformed` (a file on which `JSON.parse` throws) or `parsed e`
  for a structurally parsed event record `e`.
* `RawEvent` mirrors the `BaseEvent` interface.  `timestamp` is the epoch
  millisecond value `new Date(ts).getTime()` of the ISO-8601 string (valid
  ISO timestamps order-embed into epoch milliseconds, and the code compares
  timestamps only through `getTime()`).  `processedBy` is an
  `Option (List String)`: `none` models a JSON object that parsed but lacks
  the `processedBy` array, so that the JavaScript `TypeError` raised by
  `event.processedBy.includes(...)` on such a record is representable.
* Handlers are registered per event type; a handler is modelled by an
  identity and a flag saying whether invoking it throws.  Handler
  invocations are recorded in a trace of (handler id, event id) pairs.
* Fallible operations return `Except String` / an `Option String` error
  component; operations whose errors the code catches and swallows are
  total functions.
* `String.endsWith` / `String.startsWith` are embedded as suffix/prefix
  tests on the underlying character lists (`strEndsWith`, `strStartsWith`),
  which compute by kernel reduction.
-/

/-- Event kinds (`events.ts`, `EventType`). -/
inductive EventType
  | JOB_CREATED
  | JOB_ACCEPTED
  | WORK_SUBMITTED
  | WORK_APPROVED
  | DISPUTE_FILED
  | ARBITRATION_COMPLETE
  | PAYMENT_RELEASED
deriving DecidableEq, Repr

/-- Advisory lifecycle flag (`events.ts`, `EventStatus`). -/
inductive EventStatus
  | pending
  | processed
deriving DecidableEq, Repr

/-- Event record (`events.ts`, `BaseEvent`).  `timestamp` is the epoch
millisecond value of the ISO-8601 string; `processedBy = none` models a
parsed JSON object in which the `processedBy` field is absent. -/
structure RawEvent where
  id : String
  type : EventType
  timestamp : Nat
  sourceAgent : String
  targetAgent : Option String
  payload : List (String × String)
  processedBy : Option (List String)
  status : EventStatus
deriving DecidableEq, Repr

/-- Content of one file in the store: either a file `JSON.parse` rejects,
or a structurally parsed event record. -/
inductive FileContent
  | malformed
  | parsed (e : RawEvent)
deriving DecidableEq, Repr

/-- The two directories of the durable store
(`src/marketplace/events/pending` and `src/marketplace/events/processed`),
each an association list from file name to content. -/
structure Store where
  pending : List (String × FileContent)
  processed : List (String × FileContent)
deriving DecidableEq, Repr

/-- Reading a file by name (`fs.readFile`): first entry with the given
name, `none` when the file does not exist. -/
def lookupFile : List (String × FileContent) → String → Option FileContent
  | [], _ => none
  | (n, c) :: rest, name => if n = name then some c else lookupFile rest name

/-- Replacing the content stored under an existing file name. -/
def replaceFile : List (String × FileContent) → String → FileContent →
    List (String × FileContent)
  | [], _, _ => []
  | (n, c0) :: rest, name, c =>
    if n = name then (name, c) :: replaceFile rest name c
    else (n, c0) :: replaceFile rest name c

/-- Writing a file (`fs.writeFile` / `fs.rename` onto a destination):
overwrites an existing file of that name, otherwise creates a new one. -/
def putFile (dir : List (String × FileContent)) (name : String)
    (c : FileContent) : List (String × FileContent) :=
  if (lookupFile dir name).isSome then
    replaceFile dir name c
  else
    dir ++ [(name, c)]

/-- Deleting a file (`fs.unlink`, or the source side of `fs.rename`). -/
def removeFile : List (String × FileContent) → String →
    List (String × FileContent)
  | [], _ => []
  | (n, c) :: rest, name =>
    if n = name then removeFile rest name
    else (n, c) :: removeFile rest name

/-- Embedding of `String.endsWith` by comparing character lists. -/
def strEndsWith (s suffix : String) : Bool :=
  suffix.data.isSuffixOf s.data

/-- Embedding of `String.startsWith` by comparing character lists. -/
def strStartsWith (s p : String) : Bool :=
  p.data.isPrefixOf s.data

/-- File-name filter of `poll` (EventBus.ts lines 222-224): keep names
ending in `.json` that do not start with `.` (temp artifacts). -/
def goodName (n : String) : Bool :=
  strEndsWith n ".json" && !(strStartsWith n ".")

/-- File name used for an event id (EventBus.ts line 101). -/
def pendingName (id : String) : String := id ++ ".json"

/-- One registered handler: an identity (to recognise its invocations in
the trace) and whether invoking it throws. -/
structure HandlerSpec where
  hid : Nat
  fails : Bool
deriving DecidableEq, Repr

/-- Invoking a handler (`await handler(event)`, line 297): throws exactly
when the handler fails. -/
def invokeHandler (h : HandlerSpec) : Except String Unit :=
  if h.fails then .error "handler error" else .ok ()

/-- One EventBus instance: its consumer identity (`agentId`) and its
handler registry (`handlers: Map<EventType, EventHandler[]>`). -/
structure Bus where
  agentId : String
  handlers : EventType → List HandlerSpec

/-- Appending a handler for an event type (`subscribe`, lines 153-160). -/
def subscribe (bus : Bus) (t : EventType) (h : HandlerSpec) : Bus :=
  { bus with
    handlers := fun t' =>
      if t' = t then bus.handlers t' ++ [h] else bus.handlers t' }

/-- A handler invocation recorded in the trace: (handler id, event id). -/
abbrev HandlerCall := Nat × String

/-- State threaded through one poll cycle: the store plus the trace of
handler invocations made so far in the cycle. -/
structure PollState where
  store : Store
  calls : List HandlerCall
deriving DecidableEq, Repr

/-- `publish` (EventBus.ts lines 79-144).  A missing `processedBy` is
defaulted to the empty array (lines 92-94; id, timestamp and status
defaulting at lines 82-99 happens upstream of the given record here).  If
a pending file of that id already exists the publish is skipped
(lines 105-112).  Otherwise the temp-write / verify / rename sequence
(lines 124-137) atomically creates the pending file.  The surrounding
`try/catch` (lines 80, 140-143) swallows every error, so `publish` never
throws: it is a total function on the store. -/
def publish (st : Store) (event : RawEvent) : Store :=
  let event := { event with processedBy := some (event.processedBy.getD []) }
  let eventFileName := pendingName event.id
  if (lookupFile st.pending eventFileName).isSome then
    st
  else
    { st with pending := putFile st.pending eventFileName (.parsed event) }

/-- Handler loop of `processEvent` (lines 295-305): every handler is
invoked in registration order; a throwing handler is caught and logged
(lines 298-304) and the loop continues with the remaining handlers. -/
def runHandlers (eventId : String) :
    List HandlerSpec → List HandlerCall → List HandlerCall
  | [], calls => calls
  | h :: rest, calls =>
    let calls := calls ++ [(h.hid, eventId)]
    match invokeHandler h with
    | .ok _ => runHandlers eventId rest calls
    | .error _ => runHandlers eventId rest calls

/-- `moveToProcessed` (lines 352-379): if the pending file still exists,
its current on-disk content is read, written into the processed directory
and the pending file deleted; a vanished source is a benign no-op
(lines 371-374); all errors are caught (lines 375-378). -/
def moveToProcessed (st : Store) (eventId : String) : Store :=
  match lookupFile st.pending (pendingName eventId) with
  | none => st
  | some content =>
    { pending := removeFile st.pending (pendingName eventId)
      processed := putFile st.processed (pendingName eventId) content }

/-- Pending-file update of `processEvent` (lines 319-339): if the file
still exists it is atomically rewritten with the updated record, otherwise
the update is skipped (another agent archived the event meanwhile). -/
def updatePending (st : Store) (event : RawEvent) : Store :=
  if (lookupFile st.pending (pendingName event.id)).isSome then
    { st with pending := putFile st.pending (pendingName event.id) (.parsed event) }
  else
    st

/-- `processEvent` (lines 277-345).  A record whose parsed JSON lacks the
`processedBy` array makes `event.processedBy.includes(...)` (line 280)
raise a `TypeError`; the catch at lines 341-344 logs it and re-throws, so
`processEvent` returns an error.  Otherwise: skip when this agent already
appears in `processedBy` (lines 280-282); invoke all handlers of the
event's type (lines 285-306); append this agent (line 309); archive when
the in-memory `processedBy` has reached 3 entries (lines 312-317), else
persist the updated record into the pending file (lines 318-340). -/
def processEvent (bus : Bus) (ps : PollState) (event : RawEvent) :
    Except String PollState :=
  match event.processedBy with
  | none =>
    .error ("TypeError: cannot read processedBy of event " ++ event.id)
  | some pb =>
    if pb.contains bus.agentId then
      .ok ps
    else
      let handlers := bus.handlers event.type
      let calls := runHandlers event.id handlers ps.calls
      let pb' := pb ++ [bus.agentId]
      let event' := { event with processedBy := some pb' }
      if 3 ≤ pb'.length then
        .ok { store := moveToProcessed ps.store event.id, calls := calls }
      else
        .ok { store := updatePending ps.store event', calls := calls }

/-- Quarantine of a corrupted pending file (lines 242-247): rename
`pending/{file}` to `processed/corrupted-{file}`. -/
def quarantine (st : Store) (file : String) : Store :=
  { pending := removeFile st.pending file
    processed := putFile st.processed ("corrupted-" ++ file) FileContent.malformed }

/-- Read-and-parse loop of `poll` (lines 231-253), iterating over the
directory listing taken at lines 219-224: a file that vanished
meanwhile is skipped (lines 249-252), a file `JSON.parse` rejects is
quarantined (lines 241-248), a parsed record is collected. -/
def readLoop : Store → List String → List RawEvent → Store × List RawEvent
  | st, [], events => (st, events)
  | st, file :: rest, events =>
    match lookupFile st.pending file with
    | none => readLoop st rest events
    | some .malformed => readLoop (quarantine st file) rest events
    | some (.parsed e) => readLoop st rest (events ++ [e])

/-- Enumeration and read phase of `poll` (lines 219-253): list the pending
directory, keep `.json` names that are not temp artifacts, then read and
parse each one. -/
def pollReadPhase (st : Store) : Store × List RawEvent :=
  readLoop st ((st.pending.map Prod.fst).filter goodName) []

/-- The sort comparator of `poll` (lines 256-259):
`new Date(a.timestamp).getTime() - new Date(b.timestamp).getTime()`
sorts ascending by epoch milliseconds. -/
def byTimestamp (a b : RawEvent) : Prop :=
  a.timestamp ≤ b.timestamp

instance : DecidableRel byTimestamp := fun a b => Nat.decLe a.timestamp b.timestamp

instance : IsTotal RawEvent byTimestamp := ⟨fun a b => Nat.le_total a.timestamp b.timestamp⟩

instance : IsTrans RawEvent byTimestamp := ⟨fun _ _ _ => Nat.le_trans⟩

/-- The batch sort of `poll` (lines 255-259); `Array.prototype.sort` is a
stable comparison sort, embedded as a stable insertion sort. -/
def sortByTimestamp (events : List RawEvent) : List RawEvent :=
  List.insertionSort byTimestamp events

/-- Per-event loop of `poll` (lines 261-264): events are processed in
order; an error thrown by `processEvent` propagates to `poll`'s catch
(lines 265-268) which re-throws it, abandoning the remaining events. -/
def processAll (bus : Bus) (ps : PollState) :
    List RawEvent → PollState × Option String
  | [] => (ps, none)
  | e :: rest =>
    match processEvent bus ps e with
    | .ok ps' => processAll bus ps' rest
    | .error msg => (ps, some msg)

/-- `poll` (lines 216-269): enumerate and read the pending directory,
sort the batch by timestamp, process each event in order.  The error
component is `some msg` exactly when the cycle re-threw an error. -/
def poll (bus : Bus) (st : Store) : PollState × Option String :=
  let r := pollReadPhase st
  processAll bus { store := r.1, calls := [] } (sortByTimestamp r.2)

/-- The sorted batch a poll cycle hands to `processEvent`, in order. -/
def processingSequence (st : Store) : List RawEvent :=
  sortByTimestamp (pollReadPhase st).2

/-- Iterated poll cycles of one bus instance: resulting store and the
concatenated handler-invocation traces of all cycles. -/
def pollN (bus : Bus) (st : Store) : Nat → Store × List HandlerCall
  | 0 => (st, [])
  | n + 1 =>
    let r := poll bus st
    let rest := pollN bus r.1.store n
    (rest.1, r.1.calls ++ rest.2)

/-- Parsed events of a directory, in listing order. -/
def eventsOf (dir : List (String × FileContent)) : List RawEvent :=
  dir.filterMap (fun kv =>
    match kv.2 with
    | .parsed e => some e
    | .malformed => none)

/-- A structurally valid pending entry: a parsed record stored under its
own `{id}.json` name (which passes the listing filter) and carrying a
`processedBy` array. -/
def entryOK : String × FileContent → Bool
  | (_, .malformed) => false
  | (n, .parsed e) =>
    goodName n && n == pendingName e.id && e.processedBy.isSome

/-- A well-formed pending directory: every entry is structurally valid and
file names are distinct. -/
def WellFormed (st : Store) : Prop :=
  (∀ ent ∈ st.pending, entryOK ent = true) ∧ (st.pending.map Prod.fst).Nodup

instance (st : Store) : Decidable (WellFormed st) :=
  inferInstanceAs (Decidable ((∀ ent ∈ st.pending, entryOK ent = true) ∧
    (st.pending.map Prod.fst).Nodup))

/-- Outcomes of the three `fs.mkdir` calls of `ensureDirectories`
(lines 62-71): `some msg` is a failure with that error, `none` success. -/
structure FsEnv where
  mkdirEvents : Option String
  mkdirPending : Option String
  mkdirProcessed : Option String
deriving DecidableEq, Repr

/-- `ensureDirectories` (lines 62-71): the three `mkdir` calls run in
sequence; the first failure is logged and re-thrown (lines 67-70), with no
retry.  Invoked from the constructor (line 55) as a startup
precondition. -/
def ensureDirectories (env : FsEnv) : Except String Unit :=
  match env.mkdirEvents with
  | some e => .error e
  | none =>
    match env.mkdirPending with
    | some e => .error e
    | none =>
      match env.mkdirProcessed with
      | some e => .error e
      | none => .ok ()

/-- Event-loop view of one bus instance's polling life cycle
(`startPolling` / `stopPolling`, lines 166-201): whether the instance is
in the `polling` state, and how many poll cycles have been started but
have not yet run their awaited chain to completion. -/
structure BusLoopState where
  isPolling : Bool
  inFlight : Nat
deriving DecidableEq, Repr

/-- Events of the polling event loop: a `startPolling` call, a timer tick
of the interval installed at lines 179-183, completion of an in-flight
cycle's awaited chain, and a `stopPolling` call. -/
inductive LoopEvent
  | startPollingReq
  | intervalTick
  | cycleDone
  | stopPollingReq
deriving DecidableEq, Repr

/-- One step of the polling event loop.  `startPolling` is a no-op when
already polling (lines 167-170), otherwise enters the polling state and
starts the initial cycle (lines 172-176).  A timer tick runs the interval
callback `() => { this.poll().catch(...) }` (lines 179-183), which calls
`poll` unconditionally — there is no check that the previous cycle has
completed — so a tick while polling always starts one more in-flight
cycle.  `stopPolling` clears the interval (lines 189-201); in-flight
cycles run to completion. -/
def loopStep (s : BusLoopState) : LoopEvent → BusLoopState
  | .startPollingReq =>
    if s.isPolling then s
    else { isPolling := true, inFlight := s.inFlight + 1 }
  | .intervalTick =>
    if s.isPolling then { s with inFlight := s.inFlight + 1 } else s
  | .cycleDone => { s with inFlight := s.inFlight - 1 }
  | .stopPollingReq => { s with isPolling := false }

/-- Running a sequence of polling-loop events. -/
def loopRun (s : BusLoopState) : List LoopEvent → BusLoopState
  | [] => s
  | ev :: rest => loopRun (loopStep s ev) rest

/-- The `processedBy` array found inside an optional parsed file content. -/
def fileProcessedBy : Option FileContent → Option (List String)
  | some (.parsed e) => e.processedBy
  | _ => none

/-- Name-event pairing of the parsed entries of a directory. -/
def pendingPairs (l : List (String × FileContent)) : List (String × RawEvent) :=
  l.filterMap (fun kv =>
    match kv.2 with
    | .parsed e => some (kv.1, e)
    | .malformed => none)

/-! ### Concrete instances used to exercise the development -/

/-- The `JOB_CREATED` record of the end-to-end scenario (jobId `job-1`,
budget 100), published with empty `processedBy` and status `pending`. -/
def jobEvent : RawEvent :=
  { id := "evt-1", type := .JOB_CREATED, timestamp := 1000,
    sourceAgent := "hiring", targetAgent := none,
    payload := [("jobId", "job-1"), ("budget", "100")],
    processedBy := some [], status := .pending }

/-- Consumer instance of the hiring role, with no handlers registered. -/
def hiringBus : Bus := { agentId := "hiring-1", handlers := fun _ => [] }

/-- Consumer instance of the worker role, with no handlers registered. -/
def workerBus : Bus := { agentId := "worker-1", handlers := fun _ => [] }

/-- Consumer instance of the arbitrator role, with no handlers registered. -/
def arbitratorBus : Bus := { agentId := "arbitrator-1", handlers := fun _ => [] }

/-- Store after publishing `jobEvent` into an empty store. -/
def c1Store0 : Store := publish { pending := [], processed := [] } jobEvent

/-- Store after the hiring consumer's poll cycle. -/
def c1Store1 : Store := (poll hiringBus c1Store0).1.store

/-- Store after the worker consumer's poll cycle. -/
def c1Store2 : Store := (poll workerBus c1Store1).1.store

/-- Store after the arbitrator consumer's poll cycle (all three notional
consumers have processed the record). -/
def c1Store3 : Store := (poll arbitratorBus c1Store2).1.store

/-- A record with its own id, used for the duplicate-publish scenario. -/
def c4First : RawEvent := { jobEvent with id := "evt-9", payload := [("v", "1")] }

/-- A different record carrying the same id `evt-9`. -/
def c4Second : RawEvent := { jobEvent with id := "evt-9", payload := [("v", "2")] }

/-- Store in which `c4First` was published and then fully consumed
(archived) by the three consumers. -/
def c4Store3 : Store :=
  (poll arbitratorBus
    (poll workerBus
      (poll hiringBus (publish { pending := [], processed := [] } c4First)).1.store).1.store).1.store

/-- A record already processed by the hiring consumer. -/
def c2Event : RawEvent := { jobEvent with id := "evt-2", processedBy := some ["hiring-1"] }

/-- A pending store holding only `c2Event`. -/
def c2Store : Store :=
  { pending := [(pendingName "evt-2", .parsed c2Event)], processed := [] }

/-- A record two of three consumers have already processed. -/
def c3Event : RawEvent := { jobEvent with id := "evt-3", processedBy := some ["a", "b"] }

/-- Poll-cycle state whose store holds only `c3Event`. -/
def c3State : PollState :=
  { store := { pending := [(pendingName "evt-3", .parsed c3Event)], processed := [] }
    calls := [] }

/-- First valid record of the corrupted-isolation scenario. -/
def c6Valid1 : RawEvent := { jobEvent with id := "evt-61", timestamp := 100 }

/-- Second valid record of the corrupted-isolation scenario. -/
def c6Valid2 : RawEvent := { jobEvent with id := "evt-62", timestamp := 200 }

/-- A pending store with one malformed resource between two valid ones. -/
def c6Store : Store :=
  { pending := [(pendingName "evt-61", .parsed c6Valid1),
                ("broken.json", FileContent.malformed),
                (pendingName "evt-62", .parsed c6Valid2)]
    processed := [] }

/-- Record with the later of two distinct timestamps. -/
def c8Event1 : RawEvent := { jobEvent with id := "evt-81", timestamp := 300 }

/-- Record with the earlier of two distinct timestamps. -/
def c8Event2 : RawEvent := { jobEvent with id := "evt-82", timestamp := 100 }

/-- Pending store listing the later record first. -/
def c8Store : Store :=
  { pending := [(pendingName "evt-81", .parsed c8Event1),
                (pendingName "evt-82", .parsed c8Event2)]
    processed := [] }

/-- The same pending entries in the opposite enumeration order. -/
def c8StoreRev : Store :=
  { pending := [(pendingName "evt-82", .parsed c8Event2),
                (pendingName "evt-81", .parsed c8Event1)]
    processed := [] }

/-- Bus whose `JOB_CREATED` handler list contains a throwing handler
between two successful ones. -/
def c9Bus : Bus :=
  { agentId := "worker-1"
    handlers := fun t =>
      if t = EventType.JOB_CREATED then
        [{ hid := 1, fails := false }, { hid := 2, fails := true },
         { hid := 3, fails := false }]
      else [] }

/-- Fresh record processed by no consumer yet. -/
def c9Event : RawEvent := { jobEvent with id := "evt-91" }

/-- Poll-cycle state whose store holds only `c9Event`. -/
def c9State : PollState :=
  { store := { pending := [(pendingName "evt-91", .parsed c9Event)], processed := [] }
    calls := [] }

/-- A parsed record whose JSON lacks the `processedBy` array. -/
def c10Bad : RawEvent :=
  { jobEvent with id := "evt-101", timestamp := 100, processedBy := none }

/-- A valid record with a later timestamp than `c10Bad`. -/
def c10Good : RawEvent := { jobEvent with id := "evt-102", timestamp := 200 }

/-- Pending store listing the valid record before the schema-less one. -/
def c10Store : Store :=
  { pending := [(pendingName "evt-102", .parsed c10Good),
                (pendingName "evt-101", .parsed c10Bad)]
    processed := [] }

/-! ### Basic facts about the file-store primitives -/

theorem lookupFile_append (l₁ l₂ : List (String × FileContent)) (name : String) :
    lookupFile (l₁ ++ l₂) name =
      match lookupFile l₁ name with
      | some c => some c
      | none => lookupFile l₂ name := by
  induction l₁ with
  | nil => simp [lookupFile]
  | cons kv rest ih =>
    obtain ⟨n, c0⟩ := kv
    by_cases hk : n = name
    · simp [lookupFile, hk]
    · simp [lookupFile, hk, ih]

theorem lookupFile_replaceFile_self (dir : List (String × FileContent))
    (m : String) (c : FileContent) (h : (lookupFile dir m).isSome = true) :
    lookupFile (replaceFile dir m c) m = some c := by
  induction dir with
  | nil => simp [lookupFile] at h
  | cons kv rest ih =>
    obtain ⟨n, c0⟩ := kv
    by_cases hk : n = m
    · simp [replaceFile, lookupFile, hk]
    · simp only [lookupFile, hk, if_false] at h
      simp [replaceFile, lookupFile, hk, ih h]

theorem lookupFile_replaceFile_ne (dir : List (String × FileContent))
    (name m : String) (c : FileContent) (h : name ≠ m) :
    lookupFile (replaceFile dir m c) name = lookupFile dir name := by
  induction dir with
  | nil => simp [replaceFile]
  | cons kv rest ih =>
    obtain ⟨n, c0⟩ := kv
    by_cases hk : n = m
    · simp [replaceFile, lookupFile, hk, Ne.symm h, ih]
    · by_cases hn : n = name
      · simp [replaceFile, lookupFile, hk, hn, h]
      · simp [replaceFile, lookupFile, hk, hn, ih]

theorem lookupFile_putFile_self (dir : List (String × FileContent))
    (name : String) (c : FileContent) :
    lookupFile (putFile dir name c) name = some c := by
  by_cases h : (lookupFile dir name).isSome
  · simp [putFile, h, lookupFile_replaceFile_self dir name c h]
  · have hn : lookupFile dir name = none := by
      cases he : lookupFile dir name with
      | none => rfl
      | some c0 => rw [he] at h; simp at h
    rw [putFile, if_neg h, lookupFile_append, hn]
    simp [lookupFile]

theorem lookupFile_putFile_ne (dir : List (String × FileContent))
    (name m : String) (c : FileContent) (h : name ≠ m) :
    lookupFile (putFile dir m c) name = lookupFile dir name := by
  by_cases hs : (lookupFile dir m).isSome
  · simp [putFile, hs, lookupFile_replaceFile_ne dir name m c h]
  · rw [putFile, if_neg hs, lookupFile_append]
    cases he : lookupFile dir name with
    | none => simp [lookupFile, Ne.symm h]
    | some c0 => simp

theorem lookupFile_removeFile_self (dir : List (String × FileContent))
    (name : String) :
    lookupFile (removeFile dir name) name = none := by
  induction dir with
  | nil => simp [removeFile, lookupFile]
  | cons kv rest ih =>
    obtain ⟨n, c0⟩ := kv
    by_cases hk : n = name
    · simpa [removeFile, hk] using ih
    · simpa [removeFile, lookupFile, hk] using ih

theorem lookupFile_removeFile_ne (dir : List (String × FileContent))
    (name m : String) (h : name ≠ m) :
    lookupFile (removeFile dir m) name = lookupFile dir name := by
  induction dir with
  | nil => simp [removeFile]
  | cons kv rest ih =>
    obtain ⟨n, c0⟩ := kv
    by_cases hk : n = m
    · have hmn : ¬ (m = name) := fun he => h he.symm
      simpa [removeFile, lookupFile, hk, hmn] using ih
    · by_cases hn : n = name
      · simp [removeFile, lookupFile, hk, hn, h]
      · simpa [removeFile, lookupFile, hk, hn] using ih

theorem mem_of_lookupFile (dir : List (String × FileContent))
    (name : String) (c : FileContent) (h : lookupFile dir name = some c) :
    (name, c) ∈ dir := by
  induction dir with
  | nil => simp [lookupFile] at h
  | cons kv rest ih =>
    obtain ⟨n, c0⟩ := kv
    by_cases hk : n = name
    · simp only [lookupFile, hk, if_true] at h
      subst hk
      rw [Option.some.injEq] at h
      subst h
      exact List.mem_cons_self _ _
    · simp only [lookupFile, hk, if_false] at h
      exact List.mem_cons_of_mem _ (ih h)

theorem lookupFile_of_mem_nodup (dir : List (String × FileContent))
    (name : String) (c : FileContent) (hnd : (dir.map Prod.fst).Nodup)
    (h : (name, c) ∈ dir) :
    lookupFile dir name = some c := by
  induction dir with
  | nil => simp at h
  | cons kv rest ih =>
    simp only [List.map_cons, List.nodup_cons] at hnd
    rcases List.mem_cons.mp h with h1 | h1
    · subst h1
      simp [lookupFile]
    · have hk : kv.1 ≠ name := by
        intro he
        exact hnd.1 (he ▸ (List.mem_map.mpr ⟨(name, c), h1, rfl⟩))
      obtain ⟨n, c0⟩ := kv
      simp only [lookupFile, hk, if_false]
      exact ih hnd.2 h1

theorem content_unique_of_nodup (dir : List (String × FileContent))
    (name : String) (c₁ c₂ : FileContent) (hnd : (dir.map Prod.fst).Nodup)
    (h₁ : (name, c₁) ∈ dir) (h₂ : (name, c₂) ∈ dir) : c₁ = c₂ := by
  have e₁ := lookupFile_of_mem_nodup dir name c₁ hnd h₁
  have e₂ := lookupFile_of_mem_nodup dir name c₂ hnd h₂
  rw [e₁] at e₂
  exact Option.some.inj e₂

theorem pendingName_inj_id (a b : String) (h : pendingName a = pendingName b) :
    a = b := by
  unfold pendingName at h
  have hd : a.data ++ ".json".data = b.data ++ ".json".data := by
    have h1 := congrArg String.data h
    simpa [String.data_append] using h1
  exact String.ext (List.append_cancel_right hd)

theorem replaceFile_map_fst (dir : List (String × FileContent))
    (name : String) (c : FileContent) :
    (replaceFile dir name c).map Prod.fst = dir.map Prod.fst := by
  induction dir with
  | nil => simp [replaceFile]
  | cons kv rest ih =>
    obtain ⟨n, c0⟩ := kv
    by_cases hk : n = name
    · simp [replaceFile, hk, ih]
    · simp [replaceFile, hk, ih]

theorem removeFile_map_fst (dir : List (String × FileContent)) (name : String) :
    (removeFile dir name).map Prod.fst =
      (dir.map Prod.fst).filter (fun x => x ≠ name) := by
  induction dir with
  | nil => simp [removeFile]
  | cons kv rest ih =>
    obtain ⟨n, c0⟩ := kv
    by_cases hk : n = name
    · simp [removeFile, hk, ih]
    · simp [removeFile, hk, ih]

theorem mem_replaceFile_of_ne (dir : List (String × FileContent))
    (name m : String) (c cm : FileContent) (h : name ≠ m)
    (hm : (name, c) ∈ dir) : (name, c) ∈ replaceFile dir m cm := by
  induction dir with
  | nil => simp at hm
  | cons kv rest ih =>
    obtain ⟨n, c0⟩ := kv
    rcases List.mem_cons.mp hm with h1 | h1
    · have hA : name = n := congrArg Prod.fst h1
      have hB : c = c0 := congrArg Prod.snd h1
      subst hA
      subst hB
      simp only [replaceFile, if_neg h]
      exact List.mem_cons_self _ _
    · by_cases hk : n = m
      · simp only [replaceFile, if_pos hk]
        exact List.mem_cons_of_mem _ (ih h1)
      · simp only [replaceFile, if_neg hk]
        exact List.mem_cons_of_mem _ (ih h1)

/-! ### The handler loop invokes every handler, failures included -/

theorem runHandlers_eq (eventId : String) (hs : List HandlerSpec)
    (calls : List HandlerCall) :
    runHandlers eventId hs calls = calls ++ hs.map (fun h => (h.hid, eventId)) := by
  induction hs generalizing calls with
  | nil => simp [runHandlers]
  | cons h rest ih =>
    unfold runHandlers invokeHandler
    by_cases hf : h.fails
    · simp [hf, ih]
    · simp [hf, ih]

/-! ### Facts about processing a single event -/

theorem processEvent_skip (bus : Bus) (ps : PollState) (e : RawEvent)
    (pb : List String) (hpb : e.processedBy = some pb)
    (hin : bus.agentId ∈ pb) :
    processEvent bus ps e = .ok ps := by
  unfold processEvent
  rw [hpb]
  simp [hin]

theorem processEvent_run (bus : Bus) (ps : PollState) (e : RawEvent)
    (pb : List String) (hpb : e.processedBy = some pb)
    (hnot : bus.agentId ∉ pb) :
    processEvent bus ps e = .ok
      { store :=
          if 3 ≤ pb.length + 1 then moveToProcessed ps.store e.id
          else updatePending ps.store { e with processedBy := some (pb ++ [bus.agentId]) }
        calls := ps.calls ++ (bus.handlers e.type).map (fun h => (h.hid, e.id)) } := by
  unfold processEvent
  rw [hpb]
  by_cases hth : 3 ≤ pb.length + 1
  · have hth' : 2 ≤ pb.length := by omega
    simp [hnot, runHandlers_eq, hth, hth']
  · have hth' : ¬ 2 ≤ pb.length := by omega
    simp [hnot, runHandlers_eq, hth, hth']

theorem processEvent_err (bus : Bus) (ps : PollState) (e : RawEvent)
    (hpb : e.processedBy = none) :
    processEvent bus ps e =
      .error ("TypeError: cannot read processedBy of event " ++ e.id) := by
  unfold processEvent
  rw [hpb]

theorem processEvent_isSome_ok (bus : Bus) (ps : PollState) (e : RawEvent)
    (h : e.processedBy.isSome = true) :
    ∃ ps', processEvent bus ps e = .ok ps' := by
  cases hpb : e.processedBy with
  | none => rw [hpb] at h; simp at h
  | some pb =>
    by_cases hin : bus.agentId ∈ pb
    · exact ⟨ps, processEvent_skip bus ps e pb hpb hin⟩
    · exact ⟨_, processEvent_run bus ps e pb hpb hin⟩

theorem processEvent_frame_pending (bus : Bus) (ps : PollState) (e : RawEvent)
    (ps' : PollState) (hok : processEvent bus ps e = .ok ps')
    (n : String) (hne : n ≠ pendingName e.id) :
    lookupFile ps'.store.pending n = lookupFile ps.store.pending n := by
  cases hpb : e.processedBy with
  | none => rw [processEvent_err bus ps e hpb] at hok; cases hok
  | some pb =>
    by_cases hin : bus.agentId ∈ pb
    · rw [processEvent_skip bus ps e pb hpb hin] at hok
      cases hok
      rfl
    · rw [processEvent_run bus ps e pb hpb hin] at hok
      rw [Except.ok.injEq] at hok
      subst hok
      dsimp only
      by_cases hth : 3 ≤ pb.length + 1
      · rw [if_pos hth]
        cases hl : lookupFile ps.store.pending (pendingName e.id) with
        | none => simp [moveToProcessed, hl]
        | some content =>
          simp only [moveToProcessed, hl]
          exact lookupFile_removeFile_ne _ n _ hne
      · rw [if_neg hth]
        by_cases hp : (lookupFile ps.store.pending (pendingName e.id)).isSome
        · simp [updatePending, hp, lookupFile_putFile_ne _ n _ _ hne]
        · simp [updatePending, hp]

theorem processEvent_frame_processed (bus : Bus) (ps : PollState) (e : RawEvent)
    (ps' : PollState) (hok : processEvent bus ps e = .ok ps')
    (n : String) (hne : n ≠ pendingName e.id) :
    lookupFile ps'.store.processed n = lookupFile ps.store.processed n := by
  cases hpb : e.processedBy with
  | none => rw [processEvent_err bus ps e hpb] at hok; cases hok
  | some pb =>
    by_cases hin : bus.agentId ∈ pb
    · rw [processEvent_skip bus ps e pb hpb hin] at hok
      cases hok
      rfl
    · rw [processEvent_run bus ps e pb hpb hin] at hok
      rw [Except.ok.injEq] at hok
      subst hok
      dsimp only
      by_cases hth : 3 ≤ pb.length + 1
      · rw [if_pos hth]
        cases hl : lookupFile ps.store.pending (pendingName e.id) with
        | none => simp [moveToProcessed, hl]
        | some content =>
          simp only [moveToProcessed, hl]
          exact lookupFile_putFile_ne _ n _ _ hne
      · rw [if_neg hth]
        by_cases hp : (lookupFile ps.store.pending (pendingName e.id)).isSome
        · simp [updatePending, hp]
        · simp [updatePending, hp]

theorem processEvent_calls (bus : Bus) (ps : PollState) (e : RawEvent)
    (ps' : PollState) (hok : processEvent bus ps e = .ok ps') :
    ∀ c ∈ ps'.calls, c ∈ ps.calls ∨ c.2 = e.id := by
  cases hpb : e.processedBy with
  | none => rw [processEvent_err bus ps e hpb] at hok; cases hok
  | some pb =>
    by_cases hin : bus.agentId ∈ pb
    · rw [processEvent_skip bus ps e pb hpb hin] at hok
      cases hok
      intro c hc
      exact Or.inl hc
    · rw [processEvent_run bus ps e pb hpb hin] at hok
      rw [Except.ok.injEq] at hok
      subst hok
      intro c hc
      simp only [List.mem_append] at hc
      rcases hc with hc | hc
      · exact Or.inl hc
      · right
        obtain ⟨h, _, rfl⟩ := List.mem_map.mp hc
        rfl

/-! ### Preservation of pending-directory well-formedness -/

theorem mem_removeFile_subset (dir : List (String × FileContent))
    (m : String) (ent : String × FileContent) (h : ent ∈ removeFile dir m) :
    ent ∈ dir := by
  induction dir with
  | nil => simp [removeFile] at h
  | cons kv rest ih =>
    obtain ⟨n, c0⟩ := kv
    by_cases hk : n = m
    · simp only [removeFile, hk, if_pos rfl] at h
      exact List.mem_cons_of_mem _ (ih (by simpa [hk] using h))
    · simp only [removeFile, hk, if_false] at h
      rcases List.mem_cons.mp h with h1 | h1
      · exact h1 ▸ List.mem_cons_self _ _
      · exact List.mem_cons_of_mem _ (ih h1)

theorem mem_replaceFile_cases (dir : List (String × FileContent))
    (m : String) (c : FileContent) (ent : String × FileContent)
    (h : ent ∈ replaceFile dir m c) : ent ∈ dir ∨ ent = (m, c) := by
  induction dir with
  | nil => simp [replaceFile] at h
  | cons kv rest ih =>
    obtain ⟨n, c0⟩ := kv
    by_cases hk : n = m
    · simp only [replaceFile, hk, if_pos rfl] at h
      rcases List.mem_cons.mp h with h1 | h1
      · exact Or.inr h1
      · rcases ih h1 with h2 | h2
        · exact Or.inl (List.mem_cons_of_mem _ h2)
        · exact Or.inr h2
    · simp only [replaceFile, hk, if_false] at h
      rcases List.mem_cons.mp h with h1 | h1
      · exact Or.inl (h1 ▸ List.mem_cons_self _ _)
      · rcases ih h1 with h2 | h2
        · exact Or.inl (List.mem_cons_of_mem _ h2)
        · exact Or.inr h2

theorem updatePending_wf (st : Store) (e : RawEvent)
    (hgood : goodName (pendingName e.id) = true)
    (hsome : e.processedBy.isSome = true)
    (hwf : WellFormed st) : WellFormed (updatePending st e) := by
  unfold updatePending
  by_cases hp : (lookupFile st.pending (pendingName e.id)).isSome
  · rw [if_pos hp]
    constructor
    · intro ent hent
      unfold putFile at hent
      rw [if_pos hp] at hent
      rcases mem_replaceFile_cases _ _ _ _ hent with h1 | h1
      · exact hwf.1 ent h1
      · rw [h1]
        simp [entryOK, hgood, hsome]
    · show ((putFile st.pending (pendingName e.id) (.parsed e)).map Prod.fst).Nodup
      unfold putFile
      rw [if_pos hp, replaceFile_map_fst]
      exact hwf.2
  · rw [if_neg hp]
    exact hwf

theorem moveToProcessed_wf (st : Store) (eid : String) (hwf : WellFormed st) :
    WellFormed (moveToProcessed st eid) := by
  unfold moveToProcessed
  cases hl : lookupFile st.pending (pendingName eid) with
  | none => exact hwf
  | some content =>
    constructor
    · intro ent hent
      exact hwf.1 ent (mem_removeFile_subset _ _ _ hent)
    · show ((removeFile st.pending (pendingName eid)).map Prod.fst).Nodup
      rw [removeFile_map_fst]
      exact hwf.2.filter _

theorem processEvent_wf (bus : Bus) (ps : PollState) (e : RawEvent)
    (ps' : PollState) (hok : processEvent bus ps e = .ok ps')
    (hgood : goodName (pendingName e.id) = true)
    (hwf : WellFormed ps.store) : WellFormed ps'.store := by
  cases hpb : e.processedBy with
  | none => rw [processEvent_err bus ps e hpb] at hok; cases hok
  | some pb =>
    by_cases hin : bus.agentId ∈ pb
    · rw [processEvent_skip bus ps e pb hpb hin] at hok
      cases hok
      exact hwf
    · rw [processEvent_run bus ps e pb hpb hin] at hok
      rw [Except.ok.injEq] at hok
      subst hok
      dsimp only
      by_cases hth : 3 ≤ pb.length + 1
      · rw [if_pos hth]
        exact moveToProcessed_wf _ _ hwf
      · rw [if_neg hth]
        exact updatePending_wf _ _ hgood rfl hwf

/-! ### Facts about the per-event loop of a poll cycle -/

theorem processAll_append (bus : Bus) (l₁ l₂ : List RawEvent) :
    ∀ ps, processAll bus ps (l₁ ++ l₂) =
      match processAll bus ps l₁ with
      | (ps1, none) => processAll bus ps1 l₂
      | (ps1, some msg) => (ps1, some msg) := by
  induction l₁ with
  | nil => intro ps; simp [processAll]
  | cons e rest ih =>
    intro ps
    simp only [List.cons_append, processAll]
    cases processEvent bus ps e with
    | ok ps1 => exact ih ps1
    | error msg => rfl

theorem processAll_ok_frame (bus : Bus) (evs : List RawEvent) :
    ∀ ps, (∀ e' ∈ evs, e'.processedBy.isSome = true) →
    ∃ ps', processAll bus ps evs = (ps', none) ∧
      (∀ n, n ∉ evs.map (fun e' => pendingName e'.id) →
        lookupFile ps'.store.pending n = lookupFile ps.store.pending n ∧
        lookupFile ps'.store.processed n = lookupFile ps.store.processed n) ∧
      (∀ c ∈ ps'.calls, c ∈ ps.calls ∨ c.2 ∈ evs.map RawEvent.id) := by
  induction evs with
  | nil =>
    intro ps _
    exact ⟨ps, rfl, fun n _ => ⟨rfl, rfl⟩, fun c hc => Or.inl hc⟩
  | cons e rest ih =>
    intro ps hsome
    obtain ⟨ps1, hok⟩ :=
      processEvent_isSome_ok bus ps e (hsome e (List.mem_cons_self _ _))
    obtain ⟨ps', hall, hframe, hcalls⟩ :=
      ih ps1 (fun e' he' => hsome e' (List.mem_cons_of_mem _ he'))
    refine ⟨ps', ?_, ?_, ?_⟩
    · simp only [processAll, hok]
      exact hall
    · intro n hn
      simp only [List.map_cons, List.mem_cons] at hn
      push_neg at hn
      obtain ⟨hn1, hn2⟩ := hn
      obtain ⟨hp, hq⟩ := hframe n (by simpa using hn2)
      exact ⟨hp.trans (processEvent_frame_pending bus ps e ps1 hok n hn1),
             hq.trans (processEvent_frame_processed bus ps e ps1 hok n hn1)⟩
    · intro c hc
      rcases hcalls c hc with h1 | h1
      · rcases processEvent_calls bus ps e ps1 hok c h1 with h2 | h2
        · exact Or.inl h2
        · right
          rw [h2]
          exact List.mem_cons_self _ _
      · right
        simp only [List.map_cons, List.mem_cons]
        exact Or.inr h1

theorem processAll_skip_invariant (bus : Bus) (e : RawEvent) (pb : List String)
    (hpb : e.processedBy = some pb) (hin : bus.agentId ∈ pb)
    (evs : List RawEvent) :
    ∀ ps, WellFormed ps.store →
    lookupFile ps.store.pending (pendingName e.id) = some (.parsed e) →
    (∀ e' ∈ evs, goodName (pendingName e'.id) = true ∧
      e'.processedBy.isSome = true ∧
      (pendingName e'.id = pendingName e.id → e' = e)) →
    ∃ ps', processAll bus ps evs = (ps', none) ∧ WellFormed ps'.store ∧
      lookupFile ps'.store.pending (pendingName e.id) = some (.parsed e) ∧
      (∀ c ∈ ps'.calls, c ∈ ps.calls ∨ c.2 ≠ e.id) := by
  induction evs with
  | nil =>
    intro ps hwf hfile _
    exact ⟨ps, rfl, hwf, hfile, fun c hc => Or.inl hc⟩
  | cons e1 rest ih =>
    intro ps hwf hfile hevs
    obtain ⟨hgood1, hsome1, heq1⟩ := hevs e1 (List.mem_cons_self _ _)
    by_cases heq : e1 = e
    · subst heq
      have hok : processEvent bus ps e1 = .ok ps :=
        processEvent_skip bus ps e1 pb hpb hin
      obtain ⟨ps', hall, hwf', hfile', hcalls'⟩ :=
        ih ps hwf hfile (fun e' he' => hevs e' (List.mem_cons_of_mem _ he'))
      refine ⟨ps', ?_, hwf', hfile', hcalls'⟩
      simp only [processAll, hok]
      exact hall
    · have hne : pendingName e1.id ≠ pendingName e.id := fun h => heq (heq1 h)
      obtain ⟨ps1, hok⟩ := processEvent_isSome_ok bus ps e1 hsome1
      have hwf1 : WellFormed ps1.store :=
        processEvent_wf bus ps e1 ps1 hok hgood1 hwf
      have hfile1 : lookupFile ps1.store.pending (pendingName e.id) =
          some (.parsed e) := by
        rw [processEvent_frame_pending bus ps e1 ps1 hok (pendingName e.id) (Ne.symm hne)]
        exact hfile
      obtain ⟨ps', hall, hwf', hfile', hcalls'⟩ :=
        ih ps1 hwf1 hfile1 (fun e' he' => hevs e' (List.mem_cons_of_mem _ he'))
      refine ⟨ps', ?_, hwf', hfile', ?_⟩
      · simp only [processAll, hok]
        exact hall
      · intro c hc
        rcases hcalls' c hc with h1 | h1
        · rcases processEvent_calls bus ps e1 ps1 hok c h1 with h2 | h2
          · exact Or.inl h2
          · right
            rw [h2]
            intro hid
            exact hne (congrArg pendingName hid)
        · exact Or.inr h1

/-! ### Facts about the enumeration and read phase of a poll cycle -/

theorem entryOK_spec (n : String) (c : FileContent) (h : entryOK (n, c) = true) :
    ∃ e pb, c = .parsed e ∧ goodName n = true ∧ n = pendingName e.id ∧
      e.processedBy = some pb := by
  cases c with
  | malformed => simp [entryOK] at h
  | parsed e =>
    simp only [entryOK, Bool.and_eq_true, beq_iff_eq] at h
    obtain ⟨⟨hg, hn⟩, hs⟩ := h
    obtain ⟨pb, hpb⟩ := Option.isSome_iff_exists.mp hs
    exact ⟨e, pb, rfl, hg, hn, hpb⟩

theorem eventsOf_append (l₁ l₂ : List (String × FileContent)) :
    eventsOf (l₁ ++ l₂) = eventsOf l₁ ++ eventsOf l₂ := by
  simp [eventsOf, List.filterMap_append]

theorem mem_eventsOf (l : List (String × FileContent)) (e : RawEvent)
    (h : e ∈ eventsOf l) : ∃ n, (n, FileContent.parsed e) ∈ l := by
  unfold eventsOf at h
  obtain ⟨ent, hent, hmatch⟩ := List.mem_filterMap.mp h
  obtain ⟨n, c⟩ := ent
  cases c with
  | malformed => simp at hmatch
  | parsed e0 =>
    simp only [Option.some.injEq] at hmatch
    exact ⟨n, hmatch ▸ hent⟩

theorem pendingPairs_fst (l : List (String × FileContent))
    (hall : ∀ ent ∈ l, ∃ e, ent.2 = FileContent.parsed e) :
    (pendingPairs l).map Prod.fst = l.map Prod.fst := by
  induction l with
  | nil => simp [pendingPairs]
  | cons kv rest ih =>
    obtain ⟨n, c⟩ := kv
    obtain ⟨e, he⟩ := hall (n, c) (List.mem_cons_self _ _)
    simp only at he
    subst he
    simp only [pendingPairs, List.filterMap_cons, List.map_cons]
    have htail := ih (fun ent hent => hall ent (List.mem_cons_of_mem _ hent))
    simp only [pendingPairs] at htail
    rw [htail]

theorem pendingPairs_snd (l : List (String × FileContent)) :
    (pendingPairs l).map Prod.snd = eventsOf l := by
  induction l with
  | nil => simp [pendingPairs, eventsOf]
  | cons kv rest ih =>
    obtain ⟨n, c⟩ := kv
    cases c with
    | malformed => simpa [pendingPairs, eventsOf, List.filterMap_cons] using ih
    | parsed e => simpa [pendingPairs, eventsOf, List.filterMap_cons] using ih

theorem mem_pendingPairs (l : List (String × FileContent))
    (p : String × RawEvent) (h : p ∈ pendingPairs l) :
    (p.1, FileContent.parsed p.2) ∈ l := by
  unfold pendingPairs at h
  obtain ⟨ent, hent, hmatch⟩ := List.mem_filterMap.mp h
  obtain ⟨n, c⟩ := ent
  cases c with
  | malformed => simp at hmatch
  | parsed e0 =>
    simp only [Option.some.injEq] at hmatch
    rw [← hmatch]
    exact hent

theorem readLoop_parsed (pairs : List (String × RawEvent)) :
    ∀ (st : Store) (evs : List RawEvent),
    (∀ p ∈ pairs, lookupFile st.pending p.1 = some (.parsed p.2)) →
    readLoop st (pairs.map Prod.fst) evs = (st, evs ++ pairs.map Prod.snd) := by
  induction pairs with
  | nil => intro st evs _; simp [readLoop]
  | cons p rest ih =>
    intro st evs hlook
    obtain ⟨n, e⟩ := p
    have h1 : lookupFile st.pending n = some (.parsed e) :=
      hlook (n, e) (List.mem_cons_self _ _)
    simp only [List.map_cons, readLoop, h1]
    rw [ih st (evs ++ [e]) (fun p hp => hlook p (List.mem_cons_of_mem _ hp))]
    simp

theorem readLoop_append (ns₁ ns₂ : List String) :
    ∀ st evs, readLoop st (ns₁ ++ ns₂) evs =
      readLoop (readLoop st ns₁ evs).1 ns₂ (readLoop st ns₁ evs).2 := by
  induction ns₁ with
  | nil => intro st evs; rfl
  | cons n rest ih =>
    intro st evs
    cases hl : lookupFile st.pending n with
    | none =>
      simp only [List.cons_append, readLoop, hl]
      exact ih st evs
    | some c =>
      cases c with
      | malformed =>
        simp only [List.cons_append, readLoop, hl]
        exact ih _ evs
      | parsed e =>
        simp only [List.cons_append, readLoop, hl]
        exact ih st (evs ++ [e])

theorem pollReadPhase_parsed (st : Store)
    (hparsed : ∀ ent ∈ st.pending, ∃ e, ent.2 = FileContent.parsed e)
    (hgood : ∀ n ∈ st.pending.map Prod.fst, goodName n = true)
    (hnd : (st.pending.map Prod.fst).Nodup) :
    pollReadPhase st = (st, eventsOf st.pending) := by
  unfold pollReadPhase
  have hfilter : (st.pending.map Prod.fst).filter goodName =
      st.pending.map Prod.fst := List.filter_eq_self.mpr hgood
  rw [hfilter, ← pendingPairs_fst st.pending hparsed,
    readLoop_parsed (pendingPairs st.pending) st []
      (fun p hp => lookupFile_of_mem_nodup _ _ _ hnd (mem_pendingPairs _ _ hp))]
  rw [pendingPairs_snd]
  simp

theorem wf_parsed (st : Store) (hwf : WellFormed st) :
    ∀ ent ∈ st.pending, ∃ e, ent.2 = FileContent.parsed e := by
  intro ent hent
  obtain ⟨n, c⟩ := ent
  obtain ⟨e, _, he, _⟩ := entryOK_spec n c (hwf.1 (n, c) hent)
  exact ⟨e, he⟩

theorem wf_goodNames (st : Store) (hwf : WellFormed st) :
    ∀ n ∈ st.pending.map Prod.fst, goodName n = true := by
  intro n hn
  obtain ⟨ent, hent, hfst⟩ := List.mem_map.mp hn
  obtain ⟨m, c⟩ := ent
  obtain ⟨e, _, _, hg, _, _⟩ := entryOK_spec m c (hwf.1 (m, c) hent)
  simpa [← hfst] using hg

theorem pollReadPhase_wf (st : Store) (hwf : WellFormed st) :
    pollReadPhase st = (st, eventsOf st.pending) :=
  pollReadPhase_parsed st (wf_parsed st hwf) (wf_goodNames st hwf) hwf.2

/-! ### Facts about the timestamp sort -/

theorem sortByTimestamp_perm (l : List RawEvent) : (sortByTimestamp l).Perm l :=
  List.perm_insertionSort byTimestamp l

theorem sortByTimestamp_sorted (l : List RawEvent) :
    List.Pairwise byTimestamp (sortByTimestamp l) :=
  List.sorted_insertionSort byTimestamp l

theorem pairwise_lt_of_sorted_nodup (l : List RawEvent)
    (hs : List.Pairwise byTimestamp l)
    (hnd : (l.map RawEvent.timestamp).Nodup) :
    List.Pairwise (fun a b => a.timestamp < b.timestamp) l := by
  have hne : List.Pairwise (fun a b : RawEvent => a.timestamp ≠ b.timestamp) l :=
    List.pairwise_map.mp hnd
  exact (hs.and hne).imp (fun h => Nat.lt_of_le_of_ne h.1 h.2)

theorem sortByTimestamp_eq_of_perm (l₁ l₂ : List RawEvent) (hperm : l₁.Perm l₂)
    (hnd : (l₁.map RawEvent.timestamp).Nodup) :
    sortByTimestamp l₁ = sortByTimestamp l₂ := by
  have hp : (sortByTimestamp l₁).Perm (sortByTimestamp l₂) :=
    (sortByTimestamp_perm l₁).trans (hperm.trans (sortByTimestamp_perm l₂).symm)
  have hnd1 : ((sortByTimestamp l₁).map RawEvent.timestamp).Nodup :=
    (((sortByTimestamp_perm l₁).map RawEvent.timestamp).nodup_iff).mpr hnd
  have hnd2 : ((sortByTimestamp l₂).map RawEvent.timestamp).Nodup :=
    ((hp.map RawEvent.timestamp).nodup_iff).mp hnd1
  haveI : IsAntisymm RawEvent (fun a b => a.timestamp < b.timestamp) :=
    ⟨fun _ _ hab hba => absurd hba (Nat.lt_asymm hab)⟩
  exact List.eq_of_perm_of_sorted hp
    (pairwise_lt_of_sorted_nodup _ (sortByTimestamp_sorted l₁) hnd1)
    (pairwise_lt_of_sorted_nodup _ (sortByTimestamp_sorted l₂) hnd2)

/-! ### One whole poll cycle of a well-formed store -/

theorem poll_eq (bus : Bus) (st : Store) :
    poll bus st =
      processAll bus { store := (pollReadPhase st).1, calls := [] }
        (processingSequence st) := rfl

theorem poll_skips (bus : Bus) (st : Store) (e : RawEvent) (pb : List String)
    (hwf : WellFormed st)
    (hfile : lookupFile st.pending (pendingName e.id) = some (.parsed e))
    (hpb : e.processedBy = some pb) (hin : bus.agentId ∈ pb) :
    ∃ ps, poll bus st = (ps, none) ∧ WellFormed ps.store ∧
      lookupFile ps.store.pending (pendingName e.id) = some (.parsed e) ∧
      ∀ c ∈ ps.calls, c.2 ≠ e.id := by
  have hevs : ∀ e' ∈ sortByTimestamp (eventsOf st.pending),
      goodName (pendingName e'.id) = true ∧ e'.processedBy.isSome = true ∧
      (pendingName e'.id = pendingName e.id → e' = e) := by
    intro e' he'
    have hmem : e' ∈ eventsOf st.pending := (sortByTimestamp_perm _).subset he'
    obtain ⟨n, hent⟩ := mem_eventsOf _ _ hmem
    obtain ⟨e0, pb0, hc, hg, hn, hpb0⟩ := entryOK_spec n _ (hwf.1 _ hent)
    have he0 : e' = e0 := FileContent.parsed.inj hc
    subst he0
    refine ⟨hn ▸ hg, by simp [hpb0], ?_⟩
    intro hname
    have hn' : n = pendingName e.id := hn.trans hname
    have hmem2 : (pendingName e.id, FileContent.parsed e) ∈ st.pending :=
      mem_of_lookupFile _ _ _ hfile
    exact FileContent.parsed.inj
      (content_unique_of_nodup st.pending (pendingName e.id)
        (FileContent.parsed e') (FileContent.parsed e) hwf.2 (hn' ▸ hent) hmem2)
  obtain ⟨ps, hall, hwf', hfile', hcalls'⟩ :=
    processAll_skip_invariant bus e pb hpb hin
      (sortByTimestamp (eventsOf st.pending)) { store := st, calls := [] }
      hwf hfile hevs
  refine ⟨ps, ?_, hwf', hfile', ?_⟩
  · rw [poll_eq]
    have hread := pollReadPhase_wf st hwf
    rw [processingSequence, hread]
    exact hall
  · intro c hc
    rcases hcalls' c hc with h1 | h1
    · simp at h1
    · exact h1

theorem pollN_skip_all (bus : Bus) (e : RawEvent) (pb : List String)
    (hpb : e.processedBy = some pb) (hin : bus.agentId ∈ pb) :
    ∀ (n : Nat) (st : Store), WellFormed st →
    lookupFile st.pending (pendingName e.id) = some (.parsed e) →
    WellFormed (pollN bus st n).1 ∧
    lookupFile (pollN bus st n).1.pending (pendingName e.id) = some (.parsed e) ∧
    ∀ c ∈ (pollN bus st n).2, c.2 ≠ e.id := by
  intro n
  induction n with
  | zero =>
    intro st hwf hfile
    exact ⟨hwf, hfile, by simp [pollN]⟩
  | succ k ih =>
    intro st hwf hfile
    obtain ⟨ps, hpoll, hwf1, hfile1, hcalls1⟩ :=
      poll_skips bus st e pb hwf hfile hpb hin
    obtain ⟨hwfk, hfilek, hck⟩ := ih ps.store hwf1 hfile1
    have hstep : pollN bus st (k + 1) =
        ((pollN bus ps.store k).1, ps.calls ++ (pollN bus ps.store k).2) := by
      simp only [pollN, hpoll]
    rw [hstep]
    refine ⟨hwfk, hfilek, ?_⟩
    intro c hc
    rcases List.mem_append.mp hc with h1 | h1
    · exact hcalls1 c h1
    · exact hck c h1

/-! ### Quarantine of corrupted pending files -/

theorem removeFile_append (l₁ l₂ : List (String × FileContent)) (m : String) :
    removeFile (l₁ ++ l₂) m = removeFile l₁ m ++ removeFile l₂ m := by
  induction l₁ with
  | nil => rfl
  | cons kv rest ih =>
    obtain ⟨n, c⟩ := kv
    by_cases hk : n = m
    · simp [removeFile, hk, ih]
    · simp [removeFile, hk, ih]

theorem removeFile_of_not_mem (l : List (String × FileContent)) (m : String)
    (h : m ∉ l.map Prod.fst) : removeFile l m = l := by
  induction l with
  | nil => rfl
  | cons kv rest ih =>
    obtain ⟨n, c⟩ := kv
    simp only [List.map_cons, List.mem_cons] at h
    push_neg at h
    have hk : n ≠ m := fun he => h.1 he.symm
    simp [removeFile, hk, ih h.2]

theorem pollReadPhase_quarantine (st : Store)
    (va vb : List (String × FileContent)) (m : String)
    (hpend : st.pending = va ++ (m, FileContent.malformed) :: vb)
    (hparsed : ∀ ent ∈ va ++ vb, ∃ e, ent.2 = FileContent.parsed e)
    (hgood : ∀ n ∈ st.pending.map Prod.fst, goodName n = true)
    (hnd : (st.pending.map Prod.fst).Nodup) :
    pollReadPhase st =
      ({ pending := va ++ vb,
         processed := putFile st.processed ("corrupted-" ++ m) FileContent.malformed },
       eventsOf (va ++ vb)) := by
  have hparsedA : ∀ ent ∈ va, ∃ e, ent.2 = FileContent.parsed e :=
    fun ent h => hparsed ent (List.mem_append_left _ h)
  have hparsedB : ∀ ent ∈ vb, ∃ e, ent.2 = FileContent.parsed e :=
    fun ent h => hparsed ent (List.mem_append_right _ h)
  have hnames : st.pending.map Prod.fst =
      va.map Prod.fst ++ m :: vb.map Prod.fst := by
    rw [hpend]
    simp
  have hnd' : (va.map Prod.fst ++ m :: vb.map Prod.fst).Nodup := hnames ▸ hnd
  obtain ⟨hndA, hndMB, hdisj⟩ := List.nodup_append.mp hnd'
  have hmA : m ∉ va.map Prod.fst := fun hm => (hdisj hm) (List.mem_cons_self _ _)
  obtain ⟨hmB, hndB⟩ := List.nodup_cons.mp hndMB
  unfold pollReadPhase
  have hfilter : (st.pending.map Prod.fst).filter goodName =
      st.pending.map Prod.fst := List.filter_eq_self.mpr hgood
  rw [hfilter, hnames]
  have hstep1 : readLoop st (va.map Prod.fst) [] = (st, eventsOf va) := by
    rw [← pendingPairs_fst va hparsedA,
      readLoop_parsed (pendingPairs va) st []
        (fun p hp => by
          apply lookupFile_of_mem_nodup _ _ _ hnd
          rw [hpend]
          exact List.mem_append_left _ (mem_pendingPairs _ _ hp)),
      pendingPairs_snd]
    simp
  have hlm : lookupFile st.pending m = some FileContent.malformed := by
    apply lookupFile_of_mem_nodup _ _ _ hnd
    rw [hpend]
    exact List.mem_append_right _ (List.mem_cons_self _ _)
  have hq : quarantine st m =
      { pending := va ++ vb,
        processed := putFile st.processed ("corrupted-" ++ m) FileContent.malformed } := by
    unfold quarantine
    congr 1
    rw [hpend, removeFile_append, removeFile_of_not_mem va m hmA]
    show va ++ removeFile ((m, FileContent.malformed) :: vb) m = va ++ vb
    congr 1
    show (if m = m then removeFile vb m else (m, FileContent.malformed) :: removeFile vb m) = vb
    rw [if_pos rfl]
    exact removeFile_of_not_mem vb m hmB
  have hndAB : ((va ++ vb).map Prod.fst).Nodup := by
    rw [List.map_append]
    exact hnd'.sublist (List.Sublist.append_left (List.sublist_cons_self _ _) _)
  have hstep3 : readLoop (quarantine st m) (vb.map Prod.fst) (eventsOf va) =
      (quarantine st m, eventsOf va ++ eventsOf vb) := by
    rw [← pendingPairs_fst vb hparsedB,
      readLoop_parsed (pendingPairs vb) (quarantine st m) (eventsOf va)
        (fun p hp => by
          have hmem : (p.1, FileContent.parsed p.2) ∈ va ++ vb :=
            List.mem_append_right _ (mem_pendingPairs _ _ hp)
          have hpend' : (quarantine st m).pending = va ++ vb := by rw [hq]
          rw [hpend']
          exact lookupFile_of_mem_nodup _ _ _ hndAB hmem),
      pendingPairs_snd]
  calc readLoop st (va.map Prod.fst ++ m :: vb.map Prod.fst) []
      = readLoop (readLoop st (va.map Prod.fst) []).1 (m :: vb.map Prod.fst)
          (readLoop st (va.map Prod.fst) []).2 := readLoop_append _ _ st []
    _ = readLoop st (m :: vb.map Prod.fst) (eventsOf va) := by rw [hstep1]
    _ = readLoop (quarantine st m) (vb.map Prod.fst) (eventsOf va) := by
        simp only [readLoop, hlm]
    _ = (quarantine st m, eventsOf va ++ eventsOf vb) := hstep3
    _ = _ := by rw [hq, eventsOf_append]

/-! ### Effect of the archive move and the pending update on lookups -/

theorem moveToProcessed_spec (st : Store) (eid : String) (c : FileContent)
    (hfile : lookupFile st.pending (pendingName eid) = some c) :
    lookupFile (moveToProcessed st eid).pending (pendingName eid) = none ∧
    lookupFile (moveToProcessed st eid).processed (pendingName eid) = some c := by
  simp only [moveToProcessed, hfile]
  exact ⟨lookupFile_removeFile_self _ _, lookupFile_putFile_self _ _ _⟩

theorem updatePending_spec (st : Store) (e : RawEvent)
    (hsome : (lookupFile st.pending (pendingName e.id)).isSome = true) :
    lookupFile (updatePending st e).pending (pendingName e.id) =
      some (.parsed e) := by
  unfold updatePending
  rw [if_pos hsome]
  exact lookupFile_putFile_self _ _ _

theorem lookupFile_eq_none_of_not_mem (dir : List (String × FileContent))
    (name : String) (h : name ∉ dir.map Prod.fst) :
    lookupFile dir name = none := by
  induction dir with
  | nil => rfl
  | cons kv rest ih =>
    obtain ⟨n, c⟩ := kv
    simp only [List.map_cons, List.mem_cons] at h
    push_neg at h
    have hk : n ≠ name := fun he => h.1 he.symm
    simp only [lookupFile, hk, if_false]
    exact ih h.2

theorem publish_noop_of_present (st : Store) (e : RawEvent)
    (hpresent : (lookupFile st.pending (pendingName e.id)).isSome = true) :
    publish st e = st := by
  unfold publish
  dsimp only
  rw [if_pos hpresent]

theorem publish_create (st : Store) (e : RawEvent)
    (habsent : lookupFile st.pending (pendingName e.id) = none) :
    lookupFile (publish st e).pending (pendingName e.id) =
      some (.parsed { e with processedBy := some (e.processedBy.getD []) }) := by
  unfold publish
  dsimp only
  rw [habsent]
  simp only [Option.isSome_none, Bool.false_eq_true, if_false]
  exact lookupFile_putFile_self _ _ _

theorem sorted_names_sub (l : List (String × FileContent))
    (hok : ∀ ent ∈ l, entryOK ent = true) (x : String)
    (hx : x ∈ (sortByTimestamp (eventsOf l)).map (fun e' => pendingName e'.id)) :
    x ∈ l.map Prod.fst := by
  obtain ⟨e', he', hname⟩ := List.mem_map.mp hx
  have hmem : e' ∈ eventsOf l := (sortByTimestamp_perm _).subset he'
  obtain ⟨n0, hent⟩ := mem_eventsOf _ _ hmem
  obtain ⟨e0, pb0, hc, _, hn, _⟩ := entryOK_spec n0 _ (hok _ hent)
  have he0 : e' = e0 := FileContent.parsed.inj hc
  have hxn : x = n0 := by rw [← hname, he0, ← hn]
  rw [hxn]
  exact List.mem_map.mpr ⟨(n0, FileContent.parsed e'), hent, rfl⟩

/-! ### Claim theorems -/

/-- Claim C3: within one consumer's processing of a record it has not yet
processed, after the consumer's identity is appended the record is moved
from the pending namespace to the archive namespace exactly when the
resulting `processedBy` cardinality reaches 3 — the archived resource is
the previously persisted content unchanged, so in particular its payload
is identical — and below 3 the record stays in the pending namespace with
only `processedBy` updated (all other fields, payload included, are
unchanged in the rewritten record). -/
theorem c3_archival_threshold (bus : Bus) (ps : PollState) (e : RawEvent)
    (pb : List String) (hpb : e.processedBy = some pb)
    (hnot : bus.agentId ∉ pb)
    (hfile : lookupFile ps.store.pending (pendingName e.id) = some (.parsed e)) :
    ∃ ps', processEvent bus ps e = .ok ps' ∧
      (if 3 ≤ pb.length + 1 then
        lookupFile ps'.store.pending (pendingName e.id) = none ∧
        lookupFile ps'.store.processed (pendingName e.id) = some (.parsed e)
      else
        lookupFile ps'.store.pending (pendingName e.id) =
          some (.parsed { e with processedBy := some (pb ++ [bus.agentId]) })) := by
  refine ⟨_, processEvent_run bus ps e pb hpb hnot, ?_⟩
  dsimp only
  by_cases hth : 3 ≤ pb.length + 1
  · rw [if_pos hth, if_pos hth]
    exact moveToProcessed_spec ps.store e.id _ hfile
  · rw [if_neg hth, if_neg hth]
    exact updatePending_spec ps.store
      { e with processedBy := some (pb ++ [bus.agentId]) } (by rw [hfile]; rfl)

/-- Witness for C3 at a concrete input: the arbitrator processes a record
two other consumers already processed, so the threshold is reached and the
record is archived. -/
theorem c3_archival_threshold_witness :
    c3Event.processedBy = some ["a", "b"] ∧
    "arbitrator-1" ∉ (["a", "b"] : List String) ∧
    lookupFile c3State.store.pending (pendingName c3Event.id) =
      some (.parsed c3Event) ∧
    (∃ ps', processEvent arbitratorBus c3State c3Event = .ok ps' ∧
      (if 3 ≤ (["a", "b"] : List String).length + 1 then
        lookupFile ps'.store.pending (pendingName c3Event.id) = none ∧
        lookupFile ps'.store.processed (pendingName c3Event.id) =
          some (.parsed c3Event)
      else
        lookupFile ps'.store.pending (pendingName c3Event.id) =
          some (.parsed { c3Event with
            processedBy := some (["a", "b"] ++ ["arbitrator-1"]) }))) :=
  ⟨by decide, by decide, by decide,
    c3_archival_threshold arbitratorBus c3State c3Event ["a", "b"]
      (by decide) (by decide) (by decide)⟩

/-- Claim C9: if a handler registered for a record's type throws, every
sibling handler is still invoked (the trace gains one invocation per
registered handler, in registration order), the consumer's identity is
still appended and persisted (or the record archived when the threshold
is reached), and the poll cycle continues with the remaining records. -/
theorem c9_handler_failure_isolation (bus : Bus) (ps : PollState)
    (e : RawEvent) (pb : List String) (rest : List RawEvent)
    (hpb : e.processedBy = some pb) (hnot : bus.agentId ∉ pb)
    (hfail : ∃ h ∈ bus.handlers e.type, h.fails = true)
    (hfile : lookupFile ps.store.pending (pendingName e.id) = some (.parsed e)) :
    ∃ ps', processEvent bus ps e = .ok ps' ∧
      ps'.calls = ps.calls ++ (bus.handlers e.type).map (fun h => (h.hid, e.id)) ∧
      (if 3 ≤ pb.length + 1 then
        lookupFile ps'.store.pending (pendingName e.id) = none ∧
        lookupFile ps'.store.processed (pendingName e.id) = some (.parsed e)
      else
        lookupFile ps'.store.pending (pendingName e.id) =
          some (.parsed { e with processedBy := some (pb ++ [bus.agentId]) })) ∧
      processAll bus ps (e :: rest) = processAll bus ps' rest := by
  refine ⟨_, processEvent_run bus ps e pb hpb hnot, rfl, ?_, ?_⟩
  · dsimp only
    by_cases hth : 3 ≤ pb.length + 1
    · rw [if_pos hth, if_pos hth]
      exact moveToProcessed_spec ps.store e.id _ hfile
    · rw [if_neg hth, if_neg hth]
      exact updatePending_spec ps.store
        { e with processedBy := some (pb ++ [bus.agentId]) } (by rw [hfile]; rfl)
  · simp only [processAll, processEvent_run bus ps e pb hpb hnot]

/-- Witness for C9 at a concrete input: three handlers, the middle one
throwing; all three invocations appear in the trace and the record is
persisted with the consumer appended. -/
theorem c9_handler_failure_isolation_witness :
    c9Event.processedBy = some [] ∧
    "worker-1" ∉ ([] : List String) ∧
    (∃ h ∈ c9Bus.handlers c9Event.type, h.fails = true) ∧
    lookupFile c9State.store.pending (pendingName c9Event.id) =
      some (.parsed c9Event) ∧
    (∃ ps', processEvent c9Bus c9State c9Event = .ok ps' ∧
      ps'.calls = c9State.calls ++
        (c9Bus.handlers c9Event.type).map (fun h => (h.hid, c9Event.id)) ∧
      (if 3 ≤ ([] : List String).length + 1 then
        lookupFile ps'.store.pending (pendingName c9Event.id) = none ∧
        lookupFile ps'.store.processed (pendingName c9Event.id) =
          some (.parsed c9Event)
      else
        lookupFile ps'.store.pending (pendingName c9Event.id) =
          some (.parsed { c9Event with
            processedBy := some ([] ++ ["worker-1"]) })) ∧
      processAll c9Bus c9State (c9Event :: []) = processAll c9Bus ps' []) :=
  ⟨by decide, by decide, by decide, by decide,
    c9_handler_failure_isolation c9Bus c9State c9Event [] []
      (by decide) (by decide) (by decide) (by decide)⟩

/-- Claim C7: if any of the three namespace creations of
`ensureDirectories` fails, the first failing call's error is re-thrown
unchanged — the failure is neither swallowed nor retried, so startup
fails. -/
theorem c7_fatal_startup (env : FsEnv) (msg : String)
    (hfail : env.mkdirEvents = some msg ∨
      (env.mkdirEvents = none ∧ env.mkdirPending = some msg) ∨
      (env.mkdirEvents = none ∧ env.mkdirPending = none ∧
        env.mkdirProcessed = some msg)) :
    ensureDirectories env = .error msg := by
  rcases hfail with h | ⟨h1, h2⟩ | ⟨h1, h2, h3⟩
  · simp [ensureDirectories, h]
  · simp [ensureDirectories, h1, h2]
  · simp [ensureDirectories, h1, h2, h3]

/-- Witness for C7 at a concrete input: a permission error on the first
`mkdir` propagates out of `ensureDirectories`. -/
theorem c7_fatal_startup_witness :
    (FsEnv.mk (some "EACCES: permission denied") none none).mkdirEvents =
      some "EACCES: permission denied" ∧
    ensureDirectories (FsEnv.mk (some "EACCES: permission denied") none none) =
      .error "EACCES: permission denied" :=
  ⟨rfl, c7_fatal_startup _ "EACCES: permission denied" (Or.inl rfl)⟩

/-- Claim C5 is refuted by the code: the interval callback installed by
`startPolling` (lines 179-183) invokes `poll` unconditionally, with no
check that the previous cycle's awaited chain has completed, so after the
initial cycle finishes, two consecutive timer ticks with no intervening
cycle completion leave two poll cycles in flight concurrently. -/
theorem c5_overlapping_polls :
    (loopRun { isPolling := false, inFlight := 0 }
      [.startPollingReq, .cycleDone, .intervalTick, .intervalTick]).inFlight = 2 := by
  decide

/-- Claim C2: once a consumer's identity is in the persisted `processedBy`
of a pending record of a well-formed store, any number of further poll
cycles by that consumer leave the record untouched and invoke zero
handlers for it (no trace entry carries its event id). -/
theorem c2_exactly_once_per_consumer (bus : Bus) (st : Store) (e : RawEvent)
    (pb : List String) (n : Nat) (hwf : WellFormed st)
    (hfile : lookupFile st.pending (pendingName e.id) = some (.parsed e))
    (hpb : e.processedBy = some pb) (hin : bus.agentId ∈ pb) :
    lookupFile (pollN bus st n).1.pending (pendingName e.id) =
      some (.parsed e) ∧
    ∀ c ∈ (pollN bus st n).2, c.2 ≠ e.id := by
  obtain ⟨_, h2, h3⟩ := pollN_skip_all bus e pb hpb hin n st hwf hfile
  exact ⟨h2, h3⟩

/-- Witness for C2 at a concrete input: three further poll cycles of the
hiring consumer over a record it already processed fire no handlers and
leave the record unchanged. -/
theorem c2_exactly_once_per_consumer_witness :
    WellFormed c2Store ∧
    lookupFile c2Store.pending (pendingName c2Event.id) =
      some (.parsed c2Event) ∧
    c2Event.processedBy = some ["hiring-1"] ∧
    "hiring-1" ∈ (["hiring-1"] : List String) ∧
    (lookupFile (pollN hiringBus c2Store 3).1.pending (pendingName c2Event.id) =
        some (.parsed c2Event) ∧
      ∀ c ∈ (pollN hiringBus c2Store 3).2, c.2 ≠ c2Event.id) :=
  ⟨by decide, by decide, by decide, by decide,
    c2_exactly_once_per_consumer hiringBus c2Store c2Event ["hiring-1"] 3
      (by decide) (by decide) (by decide) (by decide)⟩

/-- Claim C8: the batch a poll cycle hands to per-event processing is
sorted by timestamp (non-decreasing), is a permutation of the pending
records, and — when timestamps are distinct — is the same sequence for
any enumeration (directory-listing) order of the pending namespace. -/
theorem c8_processing_order (st st' : Store) (hwf : WellFormed st)
    (hperm : st'.pending.Perm st.pending)
    (hts : ((eventsOf st.pending).map RawEvent.timestamp).Nodup) :
    List.Pairwise (fun a b => a.timestamp ≤ b.timestamp)
      (processingSequence st) ∧
    (processingSequence st).Perm (eventsOf st.pending) ∧
    processingSequence st' = processingSequence st := by
  have hwf' : WellFormed st' := by
    constructor
    · intro ent hent
      exact hwf.1 ent (hperm.subset hent)
    · exact ((hperm.map Prod.fst).nodup_iff).mpr hwf.2
  have hseq : processingSequence st = sortByTimestamp (eventsOf st.pending) := by
    simp only [processingSequence, pollReadPhase_wf st hwf]
  have hseq' : processingSequence st' =
      sortByTimestamp (eventsOf st'.pending) := by
    simp only [processingSequence, pollReadPhase_wf st' hwf']
  refine ⟨?_, ?_, ?_⟩
  · rw [hseq]
    exact (sortByTimestamp_sorted _).imp (fun h => h)
  · rw [hseq]
    exact sortByTimestamp_perm _
  · rw [hseq, hseq']
    have hpermEv : (eventsOf st'.pending).Perm (eventsOf st.pending) := by
      unfold eventsOf
      exact hperm.filterMap _
    exact sortByTimestamp_eq_of_perm _ _ hpermEv
      (((hpermEv.map RawEvent.timestamp).nodup_iff).mpr hts)

/-- Witness for C8 at a concrete input: two records with distinct
timestamps listed in opposite orders produce the same timestamp-sorted
processing sequence. -/
theorem c8_processing_order_witness :
    WellFormed c8Store ∧
    c8StoreRev.pending.Perm c8Store.pending ∧
    ((eventsOf c8Store.pending).map RawEvent.timestamp).Nodup ∧
    (List.Pairwise (fun a b => a.timestamp ≤ b.timestamp)
        (processingSequence c8Store) ∧
      (processingSequence c8Store).Perm (eventsOf c8Store.pending) ∧
      processingSequence c8StoreRev = processingSequence c8Store) :=
  ⟨by decide, by decide, by decide,
    c8_processing_order c8Store c8StoreRev (by decide) (by decide) (by decide)⟩

/-- Claim C6: a poll over a pending namespace holding one malformed
resource among structurally valid ones reads exactly the valid records as
its batch, renames the malformed resource to `corrupted-{original-name}`
inside the archive namespace (it is neither deleted nor left in pending),
and the poll cycle finishes without throwing. -/
theorem c6_corrupted_isolation (bus : Bus) (st : Store)
    (va vb : List (String × FileContent)) (m : String)
    (hpend : st.pending = va ++ (m, FileContent.malformed) :: vb)
    (hok : ∀ ent ∈ va ++ vb, entryOK ent = true)
    (hgm : goodName m = true)
    (hnd : (st.pending.map Prod.fst).Nodup)
    (hnc : ("corrupted-" ++ m) ∉ (va ++ vb).map Prod.fst) :
    (pollReadPhase st).2 = eventsOf (va ++ vb) ∧
    ∃ ps, poll bus st = (ps, none) ∧
      lookupFile ps.store.pending m = none ∧
      lookupFile ps.store.processed ("corrupted-" ++ m) =
        some FileContent.malformed := by
  have hparsed : ∀ ent ∈ va ++ vb, ∃ e, ent.2 = FileContent.parsed e := by
    intro ent hent
    obtain ⟨n0, c0⟩ := ent
    obtain ⟨e, _, hc, _⟩ := entryOK_spec n0 c0 (hok _ hent)
    exact ⟨e, hc⟩
  have hgoodAB : ∀ n ∈ (va ++ vb).map Prod.fst, goodName n = true := by
    intro n hn
    obtain ⟨ent, hent, hfst⟩ := List.mem_map.mp hn
    obtain ⟨n0, c0⟩ := ent
    obtain ⟨e, _, _, hg, _, _⟩ := entryOK_spec n0 c0 (hok _ hent)
    rw [← hfst]
    exact hg
  have hgood : ∀ n ∈ st.pending.map Prod.fst, goodName n = true := by
    intro n hn
    rw [hpend] at hn
    simp only [List.map_append, List.map_cons, List.mem_append,
      List.mem_cons] at hn
    rcases hn with h1 | h1 | h1
    · exact hgoodAB n (by rw [List.map_append]; exact List.mem_append_left _ h1)
    · rw [h1]
      exact hgm
    · exact hgoodAB n (by rw [List.map_append]; exact List.mem_append_right _ h1)
  have hread := pollReadPhase_quarantine st va vb m hpend hparsed hgood hnd
  have hnames : st.pending.map Prod.fst =
      va.map Prod.fst ++ m :: vb.map Prod.fst := by
    rw [hpend]
    simp
  have hnd' : (va.map Prod.fst ++ m :: vb.map Prod.fst).Nodup := hnames ▸ hnd
  obtain ⟨hndA, hndMB, hdisj⟩ := List.nodup_append.mp hnd'
  have hmA : m ∉ va.map Prod.fst := fun hm => (hdisj hm) (List.mem_cons_self _ _)
  obtain ⟨hmB, hndB⟩ := List.nodup_cons.mp hndMB
  have hmAB : m ∉ (va ++ vb).map Prod.fst := by
    rw [List.map_append]
    intro hm
    rcases List.mem_append.mp hm with h | h
    · exact hmA h
    · exact hmB h
  have hsome : ∀ e' ∈ sortByTimestamp (eventsOf (va ++ vb)),
      e'.processedBy.isSome = true := by
    intro e' he'
    obtain ⟨n0, hent⟩ := mem_eventsOf _ _ ((sortByTimestamp_perm _).subset he')
    obtain ⟨e0, pb0, hc, _, _, hpb0⟩ := entryOK_spec n0 _ (hok _ hent)
    rw [FileContent.parsed.inj hc, hpb0]
    rfl
  obtain ⟨ps, hall, hframe, _⟩ :=
    processAll_ok_frame bus (sortByTimestamp (eventsOf (va ++ vb)))
      { store := Store.mk (va ++ vb)
          (putFile st.processed ("corrupted-" ++ m) FileContent.malformed)
        calls := [] } hsome
  refine ⟨by rw [hread], ps, ?_, ?_, ?_⟩
  · rw [poll_eq]
    simp only [processingSequence]
    rw [hread]
    exact hall
  · have hm_not : m ∉ (sortByTimestamp (eventsOf (va ++ vb))).map
        (fun e' => pendingName e'.id) :=
      fun hm => hmAB (sorted_names_sub _ hok m hm)
    rw [(hframe m hm_not).1]
    exact lookupFile_eq_none_of_not_mem _ _ hmAB
  · have hc_not : ("corrupted-" ++ m) ∉
        (sortByTimestamp (eventsOf (va ++ vb))).map
          (fun e' => pendingName e'.id) :=
      fun hm => hnc (sorted_names_sub _ hok _ hm)
    rw [(hframe _ hc_not).2]
    exact lookupFile_putFile_self _ _ _

/-- Witness for C6 at a concrete input: a malformed resource between two
valid records is quarantined as `corrupted-broken.json`, the two valid
records form the batch, and the poll does not throw. -/
theorem c6_corrupted_isolation_witness :
    c6Store.pending = [(pendingName "evt-61", .parsed c6Valid1)] ++
      ("broken.json", FileContent.malformed) ::
        [(pendingName "evt-62", .parsed c6Valid2)] ∧
    (∀ ent ∈ [(pendingName "evt-61", FileContent.parsed c6Valid1)] ++
      [(pendingName "evt-62", FileContent.parsed c6Valid2)],
      entryOK ent = true) ∧
    goodName "broken.json" = true ∧
    (c6Store.pending.map Prod.fst).Nodup ∧
    ("corrupted-" ++ "broken.json") ∉
      ([(pendingName "evt-61", FileContent.parsed c6Valid1)] ++
        [(pendingName "evt-62", FileContent.parsed c6Valid2)]).map Prod.fst ∧
    ((pollReadPhase c6Store).2 =
        eventsOf ([(pendingName "evt-61", FileContent.parsed c6Valid1)] ++
          [(pendingName "evt-62", FileContent.parsed c6Valid2)]) ∧
      ∃ ps, poll hiringBus c6Store = (ps, none) ∧
        lookupFile ps.store.pending "broken.json" = none ∧
        lookupFile ps.store.processed ("corrupted-" ++ "broken.json") =
          some FileContent.malformed) :=
  ⟨by decide, by decide, by decide, by decide, by decide,
    c6_corrupted_isolation hiringBus c6Store
      [(pendingName "evt-61", FileContent.parsed c6Valid1)]
      [(pendingName "evt-62", FileContent.parsed c6Valid2)] "broken.json"
      (by decide) (by decide) (by decide) (by decide) (by decide)⟩

/-- Claim C10 (implicit behaviour): a pending resource whose content
parses as JSON but lacks the `processedBy` array is not quarantined — the
quarantine path only fires on parse failures — and when its turn comes in
the cycle's timestamp order, `processEvent` raises, the error is re-thrown
out of `poll`, the resource stays in pending with unchanged content, and
every record later in the sorted batch gets no handler invocation in that
cycle. -/
theorem c10_missing_processedBy (bus : Bus) (st : Store) (bad : RawEvent)
    (pre post : List RawEvent)
    (hparsed : ∀ ent ∈ st.pending, ∃ e, ent.2 = FileContent.parsed e)
    (hgood : ∀ n ∈ st.pending.map Prod.fst, goodName n = true)
    (hnd : (st.pending.map Prod.fst).Nodup)
    (hseq : processingSequence st = pre ++ bad :: post)
    (hbad : bad.processedBy = none)
    (hpre : ∀ e' ∈ pre, e'.processedBy.isSome = true)
    (hfile : lookupFile st.pending (pendingName bad.id) = some (.parsed bad))
    (hpreName : ∀ e' ∈ pre, pendingName e'.id ≠ pendingName bad.id)
    (hpostId : ∀ e' ∈ post, e'.id ∉ pre.map RawEvent.id) :
    ∃ ps, processAll bus { store := st, calls := [] } pre = (ps, none) ∧
      poll bus st =
        (ps, some ("TypeError: cannot read processedBy of event " ++ bad.id)) ∧
      lookupFile ps.store.pending (pendingName bad.id) = some (.parsed bad) ∧
      ∀ e' ∈ post, ∀ c ∈ ps.calls, c.2 ≠ e'.id := by
  have hread := pollReadPhase_parsed st hparsed hgood hnd
  have hseq' : sortByTimestamp (eventsOf st.pending) = pre ++ bad :: post := by
    rw [← hseq]
    simp only [processingSequence, hread]
  obtain ⟨ps, hall, hframe, hcalls⟩ :=
    processAll_ok_frame bus pre { store := st, calls := [] } hpre
  refine ⟨ps, hall, ?_, ?_, ?_⟩
  · rw [poll_eq]
    simp only [processingSequence]
    rw [hread]
    show processAll bus { store := st, calls := [] }
      (sortByTimestamp (eventsOf st.pending)) = _
    rw [hseq', processAll_append bus pre (bad :: post), hall]
    simp only [processAll, processEvent_err bus ps bad hbad]
  · have hn : pendingName bad.id ∉ pre.map (fun e' => pendingName e'.id) := by
      intro hmem
      obtain ⟨e', he', heq⟩ := List.mem_map.mp hmem
      exact hpreName e' he' heq
    rw [(hframe _ hn).1]
    exact hfile
  · intro e' hp c hc
    rcases hcalls c hc with h1 | h1
    · simp at h1
    · intro heq
      exact hpostId e' hp (heq ▸ h1)

/-- Witness for C10 at a concrete input: a schema-less record with the
earliest timestamp makes the whole cycle throw before the later valid
record is processed; the schema-less file stays in pending untouched. -/
theorem c10_missing_processedBy_witness :
    (∀ ent ∈ c10Store.pending, ∃ e, ent.2 = FileContent.parsed e) ∧
    (∀ n ∈ c10Store.pending.map Prod.fst, goodName n = true) ∧
    (c10Store.pending.map Prod.fst).Nodup ∧
    processingSequence c10Store = [] ++ c10Bad :: [c10Good] ∧
    c10Bad.processedBy = none ∧
    lookupFile c10Store.pending (pendingName c10Bad.id) =
      some (.parsed c10Bad) ∧
    (∃ ps, processAll hiringBus { store := c10Store, calls := [] } [] =
        (ps, none) ∧
      poll hiringBus c10Store =
        (ps, some ("TypeError: cannot read processedBy of event " ++
          c10Bad.id)) ∧
      lookupFile ps.store.pending (pendingName c10Bad.id) =
        some (.parsed c10Bad) ∧
      ∀ e' ∈ [c10Good], ∀ c ∈ ps.calls, c.2 ≠ e'.id) :=
  ⟨fun ent hent => by fin_cases hent <;> exact ⟨_, rfl⟩,
    by decide, by decide, by decide, by decide, by decide,
    c10_missing_processedBy hiringBus c10Store c10Bad [] [c10Good]
      (fun ent hent => by fin_cases hent <;> exact ⟨_, rfl⟩)
      (by decide) (by decide) (by decide) (by decide) (by decide) (by decide)
      (by decide) (by decide)⟩

/-- Claim C4 is refuted as stated over the store's whole lifetime: once
the record published under an id has been archived, the pending-namespace
existence check of `publish` no longer sees it, so a second publish with
the same id succeeds — the store ends with two resources under that id
(one pending, one archived) and the new pending content matches the
second publish, not the first. -/
theorem c4_counterexample :
    publish c4Store3 c4Second ≠ c4Store3 ∧
    lookupFile (publish c4Store3 c4Second).pending (pendingName "evt-9") =
      some (.parsed c4Second) ∧
    lookupFile (publish c4Store3 c4Second).processed (pendingName "evt-9") =
      some (.parsed { c4First with processedBy := some ["hiring-1", "worker-1"] }) ∧
    c4Second.payload ≠ c4First.payload := by
  decide

/-- Claim C4 amended: publishing a duplicate id is a no-op exactly while a
resource with that id is still present in the pending namespace — under
that condition the store keeps exactly one pending resource under the id,
whose content matches the first publish (with `processedBy` defaulted),
and `publish` never throws (it is a total function; the `try/catch` at
lines 140-143 swallows every storage error). -/
theorem c4_idempotent_publish_pending (st : Store) (e₁ e₂ : RawEvent)
    (hid : e₂.id = e₁.id)
    (habsent : lookupFile st.pending (pendingName e₁.id) = none) :
    publish (publish st e₁) e₂ = publish st e₁ ∧
    lookupFile (publish st e₁).pending (pendingName e₁.id) =
      some (.parsed { e₁ with processedBy := some (e₁.processedBy.getD []) }) := by
  have hpub := publish_create st e₁ habsent
  refine ⟨?_, hpub⟩
  apply publish_noop_of_present
  rw [show pendingName e₂.id = pendingName e₁.id from congrArg pendingName hid,
    hpub]
  rfl

/-- Witness for the amended C4 at a concrete input: a second publish under
the still-pending id `evt-9` is a no-op and pending keeps the first
record's content. -/
theorem c4_idempotent_publish_pending_witness :
    c4Second.id = c4First.id ∧
    lookupFile (Store.mk [] []).pending (pendingName c4First.id) = none ∧
    (publish (publish (Store.mk [] []) c4First) c4Second =
        publish (Store.mk [] []) c4First ∧
      lookupFile (publish (Store.mk [] []) c4First).pending
          (pendingName c4First.id) =
        some (.parsed { c4First with
          processedBy := some (c4First.processedBy.getD []) })) :=
  ⟨by decide, by decide,
    c4_idempotent_publish_pending (Store.mk [] []) c4First c4Second
      (by decide) (by decide)⟩

/-- Claim C1 is refuted in its `processedBy` part: after the publish and
the three poll cycles the record is indeed gone from pending and present
in the archive, but the archived resource's `processedBy` is
`["hiring-1", "worker-1"]` — `moveToProcessed` copies the last persisted
pending content, and the third consumer's append lives only in memory, so
the arbitrator's identity is missing from the archived resource. -/
theorem c1_counterexample :
    lookupFile c1Store3.pending (pendingName "evt-1") = none ∧
    fileProcessedBy (lookupFile c1Store3.processed (pendingName "evt-1")) =
      some ["hiring-1", "worker-1"] ∧
    "arbitrator-1" ∉
      (fileProcessedBy
        (lookupFile c1Store3.processed (pendingName "evt-1"))).getD [] := by
  decide

/-- Claim C1 amended: publish the `JOB_CREATED` record with empty
`processedBy`, let the hiring, worker and arbitrator consumers poll once
each — afterwards the record is absent from the pending namespace and
present in the archive namespace with its payload intact and status still
`pending`, and the archived `processedBy` holds exactly the first two
consumer identities in processing order (the final consumer's identity is
appended only in memory before the move and is not persisted). -/
theorem c1_end_to_end_archival :
    lookupFile c1Store3.pending (pendingName "evt-1") = none ∧
    lookupFile c1Store3.processed (pendingName "evt-1") =
      some (.parsed { jobEvent with processedBy := some ["hiring-1", "worker-1"] }) := by
  decide
